import Mathlib

/-!
# consolls: memory model, width tables and disassembler

A shallow embedding of `src/machine.h` and `src/disassembler.cpp`.

* Machine integers are naturals; `u16` arithmetic is reduced modulo `65536`
  where the source lets it overflow.
* `Memory::bytes` is a raw C array that the accessors index by pointer
  arithmetic without any check.  It is modelled as a map from byte offsets
  (counted from the start of `bytes`) to cells; offsets `< size` are the
  array, larger offsets are the storage that follows it.
* The object representation of an unsigned integer is fixed by the platform,
  not by the source, so every accessor takes the byte order as an argument.
* `instructions.h` and the bodies of `Machine::advance_addr` and
  `Machine::advance` are not among the sources; what the development needs of
  them is modelled from the specification and marked as such.
-/

set_option linter.dupNamespace false

namespace Machine

/-- `using MemoryAddress = u16;` -/
abbrev MemoryAddress := Nat

/-- Number of values of a `MemoryAddress` (`u16`). -/
def addressSpace : Nat := 65536

/-- `sizeof(MemoryAddress)`. -/
def sizeof_MemoryAddress : Nat := 2

/-- `static const u32 screen_buffer_size = (w * h) * pixel_size;` with
`pixel_size = 0.5`: half the pixel count, truncated to an unsigned integer.
Halving is exact in `r32` for pixel counts below `2 ^ 24`, the only ones used. -/
def screen_buffer_size (w h : Nat) : Nat := (w * h) % 2 ^ 32 / 2

/-- `static const u32 general_buffer_size = 0x2000;` -/
def general_buffer_size : Nat := 0x2000

/-- `static const u32 size = (screen_buffer_size + general_buffer_size);` -/
def size (w h : Nat) : Nat := (screen_buffer_size w h + general_buffer_size) % 2 ^ 32

/-- Bytes of one pixel row of a `w` pixel wide screen buffer, `w * pixel_size`
(the layout comment of `Memory`: "1 row = 128 pixels = 0x40 bytes"). -/
def row_size (w : Nat) : Nat := w % 2 ^ 32 / 2

/-- `struct Memory { u8 bytes[size]; }`.  `bytes p` is the cell at byte offset
`p` from the start of the array; only offsets below `size w h` belong to it. -/
structure Memory (w h : Nat) where
  bytes : Nat → Nat

/-- `enum class InstructionCodes : u8`. -/
inductive InstructionCodes
  | NOP | ADD | SUB | MUL | DIV | IF_ZERO | LOAD | STORE
  deriving DecidableEq, Repr

/-- Enumerator values of `InstructionCodes`. -/
def InstructionCodes.value : InstructionCodes → Nat
  | .NOP => 0x0
  | .ADD => 0x1
  | .SUB => 0x2
  | .MUL => 0x3
  | .DIV => 0x4
  | .IF_ZERO => 0x5
  | .LOAD => 0x6
  | .STORE => 0x7

/-- `enum class InstructionWidths`: "Size in bytes of instruction + arguments". -/
def InstructionWidths : InstructionCodes → Nat
  | .NOP => sizeof_MemoryAddress * (1 + 0)
  | .ADD => sizeof_MemoryAddress * (1 + 3)
  | .SUB => sizeof_MemoryAddress * (1 + 3)
  | .MUL => sizeof_MemoryAddress * (1 + 3)
  | .DIV => sizeof_MemoryAddress * (1 + 3)
  | .IF_ZERO => sizeof_MemoryAddress * (1 + 2)
  | .LOAD => sizeof_MemoryAddress * (1 + 1)
  | .STORE => sizeof_MemoryAddress * (1 + 1)

namespace Reserved

/-- `NI = 0x0000` -/
def NI : MemoryAddress := 0x0000

/-- `ScreenBuffer = 0x2000` -/
def ScreenBuffer : MemoryAddress := 0x2000

end Reserved

/-- `struct Machine { Memory<128, 128> memory; };` -/
structure Machine where
  memory : Memory 128 128

/-- The fixed-size types the accessors are instantiated with. -/
inductive Scalar
  | u8 | u16 | u32
  deriving DecidableEq, Repr

/-- `sizeof(T)` -/
def Scalar.sizeof : Scalar → Nat
  | .u8 => 1
  | .u16 => 2
  | .u32 => 4

/-- Byte order of the platform the program is compiled for. -/
inductive ByteOrder
  | little | big
  deriving DecidableEq, Repr

/-- Significance (as a power of 256) of the byte at offset `i` of a `k` byte integer. -/
def ByteOrder.place : ByteOrder → Nat → Nat → Nat
  | .little, _, i => i
  | .big, k, i => k - 1 - i

/-- The byte at offset `i` of the object representation of the `k` byte integer `v`. -/
def byteAt (o : ByteOrder) (k v i : Nat) : Nat :=
  v / 256 ^ o.place k i % 256

/-- The `k` byte integer whose object representation is `b 0, ..., b (k - 1)`. -/
def fromBytes (o : ByteOrder) (k : Nat) (b : Nat → Nat) : Nat :=
  ((List.range k).map (fun i => b i % 256 * 256 ^ o.place k i)).sum

/-- `get_ptr`: `(size *)(memory.bytes + addr)`, a pointer into the buffer,
represented by its byte offset.  No check is made. -/
def get_ptr {w h : Nat} (_memory : Memory w h) (addr : MemoryAddress) : Nat :=
  addr

/-- Reading through a `T *`: the `sizeof(T)` cells starting at offset `p`. -/
def load {w h : Nat} (o : ByteOrder) (T : Scalar) (memory : Memory w h) (p : Nat) : Nat :=
  fromBytes o T.sizeof (fun i => memory.bytes (p + i))

/-- Assigning through a `T *`: the `sizeof(T)` cells starting at offset `p`
receive the bytes of the value, every other cell keeps its content. -/
def store {w h : Nat} (o : ByteOrder) (T : Scalar) (memory : Memory w h) (p v : Nat) :
    Memory w h :=
  ⟨fun b => if p ≤ b ∧ b < p + T.sizeof then byteAt o T.sizeof v (b - p) else memory.bytes b⟩

/-- `get`: `return *get_ptr<size>(memory, addr);`.  The memory is passed by
reference, so the model returns it next to the value read. -/
def get {w h : Nat} (o : ByteOrder) (T : Scalar) (memory : Memory w h) (addr : MemoryAddress) :
    Nat × Memory w h :=
  (load o T memory (get_ptr memory addr), memory)

/-- `set`: `*get_ptr<size>(memory, addr) = byte_value;` -/
def set {w h : Nat} (o : ByteOrder) (T : Scalar) (memory : Memory w h) (addr : MemoryAddress)
    (byte_value : Nat) : Memory w h :=
  store o T memory (get_ptr memory addr) byte_value

/-- A zero-initialised memory. -/
def Memory.zero (w h : Nat) : Memory w h := ⟨fun _ => 0⟩

end Machine

namespace Disassembler

open Machine

/-- The enumerators of `Instructions::Code` that `disassemble` switches on, in
the order of its `case` labels. -/
inductive Code
  | NOP | ADD | ADD_W | SUB | SUB_W | MUL | MUL_W | DIV
  | DIV_W | NOT | LSHIFT | RSHIFT | AND | OR | XOR | JUMP_V
  | JUMP | CJUMP | CJUMP_W | CMP | CMP_W | SET_V | SET_VW | COPY
  | COPY_W | GET | GET_W | SET | SET_W
  deriving DecidableEq, Repr

/-- Every enumerator, in the order of the `case` labels. -/
def Code.all : List Code :=
  [.NOP, .ADD, .ADD_W, .SUB, .SUB_W, .MUL, .MUL_W, .DIV,
   .DIV_W, .NOT, .LSHIFT, .RSHIFT, .AND, .OR, .XOR, .JUMP_V,
   .JUMP, .CJUMP, .CJUMP_W, .CMP, .CMP_W, .SET_V, .SET_VW, .COPY,
   .COPY_W, .GET, .GET_W, .SET, .SET_W]

/-- The identifier of an enumerator. -/
def Code.name : Code → String
  | .NOP => "NOP"
  | .ADD => "ADD"
  | .ADD_W => "ADD_W"
  | .SUB => "SUB"
  | .SUB_W => "SUB_W"
  | .MUL => "MUL"
  | .MUL_W => "MUL_W"
  | .DIV => "DIV"
  | .DIV_W => "DIV_W"
  | .NOT => "NOT"
  | .LSHIFT => "LSHIFT"
  | .RSHIFT => "RSHIFT"
  | .AND => "AND"
  | .OR => "OR"
  | .XOR => "XOR"
  | .JUMP_V => "JUMP_V"
  | .JUMP => "JUMP"
  | .CJUMP => "CJUMP"
  | .CJUMP_W => "CJUMP_W"
  | .CMP => "CMP"
  | .CMP_W => "CMP_W"
  | .SET_V => "SET_V"
  | .SET_VW => "SET_VW"
  | .COPY => "COPY"
  | .COPY_W => "COPY_W"
  | .GET => "GET"
  | .GET_W => "GET_W"
  | .SET => "SET"
  | .SET_W => "SET_W"

/-- The fields of `Instructions::Args<Code>` that `disassemble_args<Code>` passes
to `printf`, in the order it passes them.  `NOP` has no argument record. -/
def Args.fields : Code → List String
  | .NOP => []
  | .ADD => ["a", "b", "result"]
  | .ADD_W => ["a", "b", "result"]
  | .SUB => ["a", "b", "result"]
  | .SUB_W => ["a", "b", "result"]
  | .MUL => ["a", "b", "result"]
  | .MUL_W => ["a", "b", "result"]
  | .DIV => ["a", "b", "result"]
  | .DIV_W => ["a", "b", "result"]
  | .NOT => ["in", "result"]
  | .LSHIFT => ["in", "bits", "result"]
  | .RSHIFT => ["in", "bits", "result"]
  | .AND => ["a", "b", "result"]
  | .OR => ["a", "b", "result"]
  | .XOR => ["a", "b", "result"]
  | .JUMP_V => ["addr"]
  | .JUMP => ["addr"]
  | .CJUMP => ["a", "b", "addr"]
  | .CJUMP_W => ["a", "b", "addr"]
  | .CMP => ["a", "b", "result"]
  | .CMP_W => ["a", "b", "result"]
  | .SET_V => ["addr", "value"]
  | .SET_VW => ["addr", "value"]
  | .COPY => ["from", "to"]
  | .COPY_W => ["from", "to"]
  | .GET => ["from_p", "to"]
  | .GET_W => ["from_p", "to"]
  | .SET => ["from", "to_p"]
  | .SET_W => ["from", "to_p"]

/-- Modelled from the spec: `sizeof(Instructions::Code)`; `instructions.h` is
not among the sources.  The opcode tag is a one-byte discriminant. -/
def sizeof_Code : Nat := 1

/-- Modelled from the spec: `sizeof(Instructions::Args<Code>)`; the argument
records are declared in `instructions.h`, which is not among the sources.  Every
argument field is one 16-bit `MemoryAddress` and `NOP` has a zero-width argument. -/
def sizeof_Args (c : Code) : Nat :=
  sizeof_MemoryAddress * (Args.fields c).length

/-- What the source leaves to the platform and to `instructions.h`: the byte
order of integers, and the numeric value of each enumerator of
`Instructions::Code` (the byte that selects its `case`). -/
structure Encoding where
  order : ByteOrder
  tag : Code → Nat

/-- A concrete encoding for evaluating the walk: little-endian integers, the
enumerators numbered from `NOP = 0` in the order of the `case` labels. -/
def Encoding.sample : Encoding :=
  ⟨.little, fun c => Code.all.indexOf c⟩

/-- `switch (code)`: the `case` whose label has the value read, `default`
(`none`) when there is none. -/
def decode (E : Encoding) (code : Nat) : Option Code :=
  Code.all.find? (fun c => decide (E.tag c = code))

/-- `printf("%#.Nx", n)`: lower-case hexadecimal with at least `prec` digits;
the `#` flag puts `0x` in front of a nonzero value only. -/
def printf_hex (prec n : Nat) : String :=
  let digits := Nat.toDigits 16 n
  let body := String.mk (List.replicate (prec - digits.length) '0' ++ digits)
  if n = 0 then body else "0x" ++ body

/-- `%#.4x` applied to an `unsigned int`. -/
def x4 (n : Nat) : String := printf_hex 4 (n % 2 ^ 32)

/-- `%#.2hhx`: the argument is converted to `unsigned char` first. -/
def hhx2 (n : Nat) : String := printf_hex 2 (n % 256)

/-- `%lu` -/
def lu (n : Nat) : String := toString n

/-- `disassemble_args<Code>`: the text its `printf` produces; `args i` is the
value of field `i` of the record (in the order of `Args.fields`).  There is no
specialisation for `NOP`, which `disassemble` prints inline. -/
def disassemble_args : Code → (Nat → Nat) → String
  | .NOP, _ => ""
  | .ADD, args => "ADD a=" ++ x4 (args 0) ++ ", b=" ++ x4 (args 1) ++ ", result=" ++ x4 (args 2)
  | .ADD_W, args => "ADD_W a=" ++ x4 (args 0) ++ ", b=" ++ x4 (args 1) ++ ", result=" ++ x4 (args 2)
  | .SUB, args => "SUB a=" ++ x4 (args 0) ++ ", b=" ++ x4 (args 1) ++ ", result=" ++ x4 (args 2)
  | .SUB_W, args => "SUB_W a=" ++ x4 (args 0) ++ ", b=" ++ x4 (args 1) ++ ", result=" ++ x4 (args 2)
  | .MUL, args => "MUL a=" ++ x4 (args 0) ++ ", b=" ++ x4 (args 1) ++ ", result=" ++ x4 (args 2)
  | .MUL_W, args => "MUL_W a=" ++ x4 (args 0) ++ ", b=" ++ x4 (args 1) ++ ", result=" ++ x4 (args 2)
  | .DIV, args => "DIV a=" ++ x4 (args 0) ++ ", b=" ++ x4 (args 1) ++ ", result=" ++ x4 (args 2)
  | .DIV_W, args => "DIV_W a=" ++ x4 (args 0) ++ ", b=" ++ x4 (args 1) ++ ", result=" ++ x4 (args 2)
  | .NOT, args => "NOT in=" ++ x4 (args 0) ++ ", result=" ++ x4 (args 1)
  | .LSHIFT, args => "LSHIFT in=" ++ x4 (args 0) ++ ", bits=" ++ x4 (args 1) ++ ", result=" ++ x4 (args 2)
  | .RSHIFT, args => "RSHIFT in=" ++ x4 (args 0) ++ ", bits=" ++ x4 (args 1) ++ ", result=" ++ x4 (args 2)
  | .AND, args => "AND a=" ++ x4 (args 0) ++ ", b=" ++ x4 (args 1) ++ ", result=" ++ x4 (args 2)
  | .OR, args => "OR a=" ++ x4 (args 0) ++ ", b=" ++ x4 (args 1) ++ ", result=" ++ x4 (args 2)
  | .XOR, args => "XOR a=" ++ x4 (args 0) ++ ", b=" ++ x4 (args 1) ++ ", result=" ++ x4 (args 2)
  | .JUMP_V, args => "JUMP_V " ++ x4 (args 0)
  | .JUMP, args => "JUMP " ++ x4 (args 0)
  | .CJUMP, args => "CJUMP a=" ++ x4 (args 0) ++ ", b=" ++ x4 (args 1) ++ ", addr=" ++ x4 (args 2)
  | .CJUMP_W, args => "CJUMP_W a=" ++ x4 (args 0) ++ ", b=" ++ x4 (args 1) ++ ", addr=" ++ x4 (args 2)
  | .CMP, args => "CMP a=" ++ x4 (args 0) ++ ", b=" ++ x4 (args 1) ++ ", result=" ++ x4 (args 2)
  | .CMP_W, args => "CMP_W a=" ++ x4 (args 0) ++ ", b=" ++ x4 (args 1) ++ ", result=" ++ x4 (args 2)
  | .SET_V, args => "SET_V addr=" ++ x4 (args 0) ++ ", value=" ++ x4 (args 1)
  | .SET_VW, args => "SET_VW addr=" ++ x4 (args 0) ++ ", value=" ++ x4 (args 1)
  | .COPY, args => "COPY from=" ++ x4 (args 0) ++ ", to=" ++ x4 (args 1)
  | .COPY_W, args => "COPY_W from=" ++ x4 (args 0) ++ ", to=" ++ x4 (args 1)
  | .GET, args => "GET from_p=" ++ x4 (args 0) ++ ", to=" ++ x4 (args 1)
  | .GET_W, args => "GET_W from_p=" ++ x4 (args 0) ++ ", to=" ++ x4 (args 1)
  | .SET, args => "SET from=" ++ x4 (args 0) ++ ", to_p=" ++ x4 (args 1)
  | .SET_W, args => "GET_W from=" ++ x4 (args 0) ++ ", to_p=" ++ x4 (args 1)

/-- State of one run of `disassemble`: the machine (passed by reference), the
cursor `addr`, the lines printed so far, and the byte offsets read so far. -/
structure Walk where
  machine : Machine.Machine
  addr : MemoryAddress
  lines : List String
  reads : List Nat

/-- Modelled from the spec: `Machine::advance_addr<T>` for a fixed-size integer
`T`; its definition is not among the sources.  It reads the `T` at `addr` through
`get` and advances `addr` (a `u16`) by `sizeof(T)`. -/
def advance_addr (o : ByteOrder) (T : Scalar) (w : Walk) : Nat × Walk :=
  let r := get o T w.machine.memory w.addr
  (r.1, { machine := ⟨r.2⟩,
          addr := (w.addr + T.sizeof) % addressSpace,
          lines := w.lines,
          reads := w.reads ++ List.range' w.addr T.sizeof })

/-- Modelled from the spec: `Machine::advance_addr<Instructions::Args<Code>>`;
neither it nor the records are among the sources.  It reads the record at `addr`,
field `i` being the `u16` at `addr + 2 * i`, and advances `addr` by the size of
the record. -/
def advance_addr_args (o : ByteOrder) (c : Code) (w : Walk) : (Nat → Nat) × Walk :=
  (fun i => (get o .u16 w.machine.memory (w.addr + sizeof_MemoryAddress * i)).1,
   { machine := w.machine,
     addr := (w.addr + sizeof_Args c) % addressSpace,
     lines := w.lines,
     reads := w.reads ++ List.range' w.addr (sizeof_Args c) })

/-- `disassemble_instruction<Code>`: reads the argument record, then prints its
size and its rendering.  Returns the text printed. -/
def disassemble_instruction (E : Encoding) (c : Code) (w : Walk) : String × Walk :=
  let r := advance_addr_args E.order c w
  ("+" ++ lu (sizeof_Args c) ++ ") :  " ++ disassemble_args c r.1, r.2)

/-- The value `advance_addr<Instructions::Code>` reads at the cursor. -/
def tagAt (E : Encoding) (w : Walk) : Nat :=
  (get E.order .u8 w.machine.memory w.addr).1

/-- The text of one line and the state after it: the body of the `while` loop
of `disassemble` up to and including `printf("\n")`. -/
def iteration (E : Encoding) (w : Walk) : Walk :=
  let head := x4 w.addr ++ " (" ++ lu sizeof_Code
  let r := advance_addr E.order .u8 w
  match decode E r.1 with
  | some .NOP => { r.2 with lines := r.2.lines ++ [head ++ ") :  NOP" ++ "\n"] }
  | some c =>
    let d := disassemble_instruction E c r.2
    { d.2 with lines := d.2.lines ++ [head ++ d.1 ++ "\n"] }
  | none => { r.2 with lines := r.2.lines ++ [head ++ ") Unrecognised code: " ++ hhx2 r.1 ++ "\n"] }

/-- How a run of the loop ended: the condition `addr < to` became false, the
`assert(addr <= to)` failed (the assertion is taken as compiled in: a failure
ends the run), or the iterations allowed were used up. -/
inductive Status
  | finished | assertFailed | running
  deriving DecidableEq, Repr

/-- `while (addr < to) { ...; assert(addr <= to); }`, for at most `fuel` iterations. -/
def loop (E : Encoding) (to_addr : MemoryAddress) : Nat → Walk → Status × Walk
  | 0, w => (if w.addr < to_addr then .running else .finished, w)
  | fuel + 1, w =>
    if w.addr < to_addr then
      let w1 := iteration E w
      if w1.addr ≤ to_addr then loop E to_addr fuel w1 else (.assertFailed, w1)
    else (.finished, w)

/-- The state in which `disassemble(machine, from, to)` enters its loop. -/
def Walk.start (machine : Machine.Machine) (from_addr : MemoryAddress) : Walk :=
  ⟨machine, from_addr, [], []⟩

/-- `disassemble(machine, from, to)` (the parameters are renamed, `from` and
`to` being reserved words).  The loop is run for at most `addressSpace`
iterations: the cursor takes at most that many values and the memory does not
change, so a longer walk revisits a cursor and never ends. -/
def disassemble (E : Encoding) (machine : Machine.Machine) (from_addr to_addr : MemoryAddress) :
    Status × Walk :=
  loop E to_addr addressSpace (Walk.start machine from_addr)

/-- All the text a walk has printed. -/
def Walk.output (w : Walk) : String := String.join w.lines

/-- The mnemonic of a rendered instruction: the text before the first blank. -/
def mnemonic (text : String) : String := String.mk (text.data.takeWhile (fun ch => ch != ' '))

/-- The label `disassemble_args<Code>` prints in front of a field, as the
amended rendering claim describes it: `field=`, except that the one field of
`JUMP_V` and of `JUMP` is printed bare. -/
def Args.label (c : Code) (field : String) : String :=
  if c = .JUMP_V ∨ c = .JUMP then "" else field ++ "="

/-- The argument part of a rendered instruction, as the amended rendering claim
describes it: the fields in record order, each a label and a `%#.4x` value,
separated by `, `. -/
def Args.text (c : Code) (args : Nat → Nat) : String :=
  ", ".intercalate ((Args.fields c).enum.map fun p => Args.label c p.2 ++ x4 (args p.1))

/-- A machine whose memory holds `bs` from offset `0` on and zero elsewhere. -/
def machineOf (bs : List Nat) : Machine.Machine := ⟨⟨fun p => bs.getD p 0⟩⟩

/-- A machine whose memory is zero except for the byte `b` at offset `p`. -/
def machineWith (p b : Nat) : Machine.Machine := ⟨⟨fun q => if q = p then b else 0⟩⟩

end Disassembler

namespace Machine

/-- The enumerator of `Instructions::Code` with the same name as an enumerator
of `InstructionCodes`, for the opcodes that both enumerations list. -/
def InstructionCodes.shared : InstructionCodes → Option Disassembler.Code
  | .NOP => some .NOP
  | .ADD => some .ADD
  | .SUB => some .SUB
  | .MUL => some .MUL
  | .DIV => some .DIV
  | .IF_ZERO => none
  | .LOAD => none
  | .STORE => none

/-- Modelled from the spec: the failures of a step (spec section 7); the body of
`Machine::advance` is not among the sources, which only declare it. -/
inductive Failure
  | OutOfBounds | InvalidOpcode | DivisionByZero | InvalidShiftAmount
  deriving DecidableEq, Repr

/-- Modelled from the spec: what the stepper depends on and the spec leaves
open.  `encoding` is shared with the disassembler; `base` and `wide` are the
operand widths of the default and of the `_W` opcode families; `effect` is the
effect of every opcode whose effect the spec does not spell out. -/
structure Semantics where
  encoding : Disassembler.Encoding
  base : Scalar
  wide : Scalar
  effect : Disassembler.Code → (Nat → Nat) → Machine → Except Failure Machine

/-- Modelled from the spec: the instruction pointer, the `u16` held in the
reserved slot `Reserved::NI`. -/
def next_instruction (o : ByteOrder) (machine : Machine) : Nat :=
  (get o .u16 machine.memory Reserved.NI).1

/-- Modelled from the spec: writing the instruction pointer (a `u16`). -/
def set_next_instruction (o : ByteOrder) (machine : Machine) (addr : Nat) : Machine :=
  ⟨set o .u16 machine.memory Reserved.NI (addr % addressSpace)⟩

/-- Modelled from the spec: the argument record that starts at offset `p`, field
`i` being the `u16` at `p + 2 * i` (as in the disassembler). -/
def read_args (o : ByteOrder) (machine : Machine) (p : Nat) : Nat → Nat :=
  fun i => (get o .u16 machine.memory (p + sizeof_MemoryAddress * i)).1

/-- Modelled from the spec: an immediate store of operand type `T`; the
destination is validated before the write (spec section 4.3). -/
def immediate_store (o : ByteOrder) (T : Scalar) (machine : Machine) (addr value : Nat) :
    Except Failure Machine :=
  if addr + T.sizeof ≤ size 128 128 then .ok ⟨set o T machine.memory addr value⟩
  else .error .OutOfBounds

/-- Modelled from the spec: the effect of an opcode.  `NOP` has no effect,
`JUMP_V` overwrites the instruction pointer with its immediate target, `SET_V`
and `SET_VW` store their immediate value at their destination address; the other
effects are those of `S.effect`. -/
def apply_effect (S : Semantics) (c : Disassembler.Code) (args : Nat → Nat)
    (machine : Machine) : Except Failure Machine :=
  match c with
  | .NOP => .ok machine
  | .JUMP_V => .ok (set_next_instruction S.encoding.order machine (args 0))
  | .SET_V => immediate_store S.encoding.order S.base machine (args 0) (args 1)
  | .SET_VW => immediate_store S.encoding.order S.wide machine (args 0) (args 1)
  | c => S.effect c args machine

/-- Modelled from the spec: `Machine::advance`, one step of the machine (spec
section 4.3); the sources only declare it.  Read the instruction pointer, read
the tag there (`InvalidOpcode` when it is no opcode), read the argument record
that follows the tag, advance the instruction pointer by the tag width plus the
argument width, then apply the effect.  A tag or record that does not lie
inside memory is an `OutOfBounds` failure. -/
def advance (S : Semantics) (machine : Machine) : Except Failure Machine :=
  let ip := next_instruction S.encoding.order machine
  if ip + Disassembler.sizeof_Code ≤ size 128 128 then
    match Disassembler.decode S.encoding (get S.encoding.order .u8 machine.memory ip).1 with
    | none => .error .InvalidOpcode
    | some c =>
      if ip + Disassembler.sizeof_Code + Disassembler.sizeof_Args c ≤ size 128 128 then
        apply_effect S c
          (read_args S.encoding.order machine (ip + Disassembler.sizeof_Code))
          (set_next_instruction S.encoding.order machine
            (ip + Disassembler.sizeof_Code + Disassembler.sizeof_Args c))
      else .error .OutOfBounds
  else .error .OutOfBounds

/-- A stepper for evaluating `advance`: the sample encoding, 16-bit and 32-bit
operands, and no effect for the opcodes the spec does not spell out. -/
def Semantics.sample : Semantics :=
  ⟨Disassembler.Encoding.sample, .u16, .u32, fun _ _ machine => .ok machine⟩

end Machine

namespace Machine

theorem store_bytes_inside {w h : Nat} (o : ByteOrder) (T : Scalar) (m : Memory w h)
    (p v i : Nat) (hi : i < T.sizeof) :
    (store o T m p v).bytes (p + i) = byteAt o T.sizeof v i := by
  simp [store, hi]

theorem store_bytes_outside {w h : Nat} (o : ByteOrder) (T : Scalar) (m : Memory w h)
    (p v b : Nat) (hb : b < p ∨ p + T.sizeof ≤ b) :
    (store o T m p v).bytes b = m.bytes b := by
  have : ¬ (p ≤ b ∧ b < p + T.sizeof) := by omega
  simp [store, this]

theorem get_set_value {w h : Nat} (o : ByteOrder) (T : Scalar) (m : Memory w h) (a v : Nat) :
    (get o T (set o T m a v) a).1 = v % 256 ^ T.sizeof := by
  have hcells : (fun i => (store o T m a v).bytes (a + i)) =
      fun i => if i < T.sizeof then byteAt o T.sizeof v i else m.bytes (a + i) := by
    funext i
    by_cases hi : i < T.sizeof
    · simp [store_bytes_inside o T m a v i hi, hi]
    · simp [store_bytes_outside o T m a v (a + i) (by omega), hi]
  simp only [get, set, get_ptr, load, hcells]
  cases T <;> cases o <;>
    simp [fromBytes, byteAt, Scalar.sizeof, ByteOrder.place, List.range_succ] <;>
    omega

end Machine


namespace Disassembler
open Machine

theorem advance_addr_u8 (o : ByteOrder) (w : Walk) :
    advance_addr o .u8 w =
      ((get o .u8 w.machine.memory w.addr).1,
       { machine := w.machine, addr := (w.addr + 1) % addressSpace, lines := w.lines,
         reads := w.reads ++ [w.addr] }) := by
  simp [advance_addr, Machine.get, Scalar.sizeof, List.range']

theorem iteration_of_none (E : Encoding) (w : Walk) (h : decode E (tagAt E w) = none) :
    iteration E w =
      { machine := w.machine, addr := (w.addr + 1) % addressSpace,
        lines := w.lines ++
          [x4 w.addr ++ " (" ++ lu sizeof_Code ++ ") Unrecognised code: " ++ hhx2 (tagAt E w)
            ++ "\n"],
        reads := w.reads ++ [w.addr] } := by
  unfold tagAt at h
  simp only [iteration, advance_addr_u8, h]
  rfl

theorem iteration_of_some (E : Encoding) (w : Walk) (c : Code)
    (h : decode E (tagAt E w) = some c) :
    (iteration E w).machine = w.machine ∧
    (iteration E w).addr = (w.addr + sizeof_Code + sizeof_Args c) % addressSpace ∧
    (iteration E w).reads =
      w.reads ++ [w.addr] ++ List.range' ((w.addr + 1) % addressSpace) (sizeof_Args c) ∧
    (iteration E w).lines.length = w.lines.length + 1 := by
  unfold tagAt at h
  cases c <;>
    simp [iteration, advance_addr_u8, h, disassemble_instruction, advance_addr_args,
      sizeof_Args, sizeof_Code, Args.fields, sizeof_MemoryAddress, addressSpace]

theorem iteration_machine (E : Encoding) (w : Walk) : (iteration E w).machine = w.machine := by
  cases h : decode E (tagAt E w) with
  | none => rw [iteration_of_none E w h]
  | some c => exact (iteration_of_some E w c h).1

theorem loop_machine (E : Encoding) (to_addr fuel : Nat) (w : Walk) :
    (loop E to_addr fuel w).2.machine = w.machine := by
  induction fuel generalizing w with
  | zero => simp [loop]
  | succ n ih =>
    simp only [loop]
    split
    · split
      · rw [ih, iteration_machine]
      · exact iteration_machine E w
    · rfl

theorem loop_assert (E : Encoding) (to_addr fuel : Nat) (w : Walk) (hlt : w.addr < to_addr)
    (hgt : ¬ (iteration E w).addr ≤ to_addr) :
    loop E to_addr (fuel + 1) w = (.assertFailed, iteration E w) := by
  simp [loop, hlt, hgt]

theorem loop_continue (E : Encoding) (to_addr fuel : Nat) (w : Walk) (hlt : w.addr < to_addr)
    (hle : (iteration E w).addr ≤ to_addr) :
    loop E to_addr (fuel + 1) w = loop E to_addr fuel (iteration E w) := by
  simp [loop, hlt, hle]

end Disassembler

namespace Machine

/-- C1. Memory round trip: for every memory `m`, address `a` (odd or even) and
value `v` of a fixed-size type `T` (`u8`, `u16`, `u32`) with
`a + sizeof(T) <= size`, `get<T>(set<T>(m, a, v), a) = v`, in either byte order. -/
theorem get_set_round_trip {w h : Nat} (o : ByteOrder) (T : Scalar) (m : Memory w h)
    (a v : Nat) (hv : v < 256 ^ T.sizeof) (_ha : a + T.sizeof ≤ size w h) :
    (get o T (set o T m a v) a).1 = v := by
  rw [get_set_value o T m a v]
  exact Nat.mod_eq_of_lt hv

/-- Witness of C1: a `u16` written at the odd address `0x3FFD` is read back. -/
theorem get_set_round_trip_witness :
    (get .little .u16 (set .little .u16 (Memory.zero 128 128) 0x3FFD 0xBEEF) 0x3FFD).1
      = 0xBEEF :=
  get_set_round_trip .little .u16 (Memory.zero 128 128) 0x3FFD 0xBEEF (by decide) (by decide)

/-- C2, as stated, fails: `0x3FFF + sizeof(u16)` exceeds `size = 0x4000`, yet
`set<u16>` at `0x3FFF` does not leave memory unchanged: the byte of memory at
`0x3FFF` is overwritten (in either byte order). -/
theorem set_past_end_writes_memory :
    size 128 128 = 0x4000 ∧ size 128 128 < 0x3FFF + Scalar.u16.sizeof ∧
    (set .little .u16 (Memory.zero 128 128) 0x3FFF 0x0101).bytes 0x3FFF
      ≠ (Memory.zero 128 128).bytes 0x3FFF ∧
    (set .big .u16 (Memory.zero 128 128) 0x3FFF 0x0101).bytes 0x3FFF
      ≠ (Memory.zero 128 128).bytes 0x3FFF := by
  decide

/-- C2 amended. The accessors make no bounds check and have no failure result:
when `a + sizeof(T) > size`, `set<T>(m, a, v)` still stores, so that every byte
of memory at an address `b` in `[a, size)` receives byte `b - a` of `v`, every
byte of memory below `a` is unchanged, and `get<T>` at `a` returns the value
stored. -/
theorem set_unchecked {w h : Nat} (o : ByteOrder) (T : Scalar) (m : Memory w h)
    (a v b : Nat) (ha : size w h < a + T.sizeof) (hb : b < size w h) :
    (b < a → (set o T m a v).bytes b = m.bytes b) ∧
    (a ≤ b → (set o T m a v).bytes b = byteAt o T.sizeof v (b - a)) ∧
    (get o T (set o T m a v) a).1 = v % 256 ^ T.sizeof := by
  refine ⟨fun h1 => store_bytes_outside o T m a v b (Or.inl h1), fun h1 => ?_, ?_⟩
  · have h2 : b - a < T.sizeof := by omega
    have h3 := store_bytes_inside o T m a v (b - a) h2
    rwa [Nat.add_sub_cancel' h1] at h3
  · exact get_set_value o T m a v

/-- Witness of C2 amended: `set<u16>` at `0x3FFF` in the machine's memory. -/
theorem set_unchecked_witness :
    (0x3FFF < 0x3FFF →
      (set .little .u16 (Memory.zero 128 128) 0x3FFF 0x0101).bytes 0x3FFF
        = (Memory.zero 128 128).bytes 0x3FFF) ∧
    (0x3FFF ≤ 0x3FFF →
      (set .little .u16 (Memory.zero 128 128) 0x3FFF 0x0101).bytes 0x3FFF
        = byteAt .little Scalar.u16.sizeof 0x0101 (0x3FFF - 0x3FFF)) ∧
    (get .little .u16 (set .little .u16 (Memory.zero 128 128) 0x3FFF 0x0101) 0x3FFF).1
      = 0x0101 % 256 ^ Scalar.u16.sizeof :=
  set_unchecked .little .u16 (Memory.zero 128 128) 0x3FFF 0x0101 0x3FFF (by decide) (by decide)

/-- C3. Frame of a memory write: for an in-bounds `a`, `set<T>(m, a, v)` changes
no byte outside `[a, a + sizeof(T))`: for `b < a` or `b >= a + sizeof(T)` the cell
at `b` and `get<u8>` at `b` are what they were; and `get<T>` returns the memory
it was given. -/
theorem set_frame {w h : Nat} (o : ByteOrder) (T : Scalar) (m : Memory w h)
    (a v b : Nat) (_ha : a + T.sizeof ≤ size w h) (hb : b < a ∨ a + T.sizeof ≤ b) :
    (set o T m a v).bytes b = m.bytes b ∧
    (get o .u8 (set o T m a v) b).1 = (get o .u8 m b).1 ∧
    (get o T m a).2 = m := by
  have h0 : (set o T m a v).bytes b = m.bytes b := store_bytes_outside o T m a v b hb
  refine ⟨h0, ?_, rfl⟩
  simp only [get, get_ptr, load, fromBytes, Scalar.sizeof, List.range_succ, List.range_zero,
    List.nil_append, List.map_cons, List.map_nil, Nat.add_zero]
  rw [h0]

/-- Witness of C3: a `u32` written at `0x0101` leaves the cell at `0x0105` alone. -/
theorem set_frame_witness :
    (set .big .u32 (Memory.zero 128 128) 0x0101 0xDEADBEEF).bytes 0x0105
      = (Memory.zero 128 128).bytes 0x0105 ∧
    (get .big .u8 (set .big .u32 (Memory.zero 128 128) 0x0101 0xDEADBEEF) 0x0105).1
      = (get .big .u8 (Memory.zero 128 128) 0x0105).1 ∧
    (get .big .u32 (Memory.zero 128 128) 0x0101).2 = Memory.zero 128 128 :=
  set_frame .big .u32 (Memory.zero 128 128) 0x0101 0xDEADBEEF 0x0105 (by decide) (by decide)

end Machine

namespace Machine

/-- C10. Memory layout of `Memory<128,128>`: the screen buffer is
`128*128/2 = 0x2000` bytes (half a byte per pixel, a 128-pixel row is `0x40`
bytes), the general buffer `0x2000` bytes, `size = 0x4000`; the framebuffer
starts at `Reserved::ScreenBuffer = 0x2000 = general_buffer_size` and ends
exactly at `size`; `Reserved::NI` is address 0; every valid address fits in a
`u16`. -/
theorem memory_layout :
    screen_buffer_size 128 128 = 128 * 128 / 2 ∧
    screen_buffer_size 128 128 = 0x2000 ∧
    row_size 128 = 0x40 ∧
    128 * row_size 128 = screen_buffer_size 128 128 ∧
    general_buffer_size = 0x2000 ∧
    size 128 128 = 0x4000 ∧
    Reserved.ScreenBuffer = 0x2000 ∧
    Reserved.ScreenBuffer = general_buffer_size ∧
    Reserved.ScreenBuffer + screen_buffer_size 128 128 = size 128 128 ∧
    Reserved.NI = 0 ∧
    size 128 128 ≤ addressSpace ∧
    ∀ a, a < size 128 128 → a < addressSpace := by
  refine ⟨by decide, by decide, by decide, by decide, by decide, by decide, by decide,
    by decide, by decide, by decide, by decide, fun a ha => ?_⟩
  have h1 : size 128 128 = 0x4000 := by decide
  have h2 : addressSpace = 65536 := rfl
  omega

/-- Witness of C10: the last valid address, `0x3FFF`, is a `u16` value. -/
theorem memory_layout_witness : 0x3FFF < size 128 128 ∧ 0x3FFF < addressSpace :=
  ⟨by decide, memory_layout.2.2.2.2.2.2.2.2.2.2.2 0x3FFF (by decide)⟩

/-- C5, as stated, fails: the declared width of `NOP` is 2, not the one tag
byte, and that of `ADD` is 8, not `1 + 6`. -/
theorem instruction_widths_not_tag_plus_args :
    InstructionWidths .NOP = 2 ∧ InstructionWidths .NOP ≠ 1 + 0 ∧
    InstructionWidths .ADD = 8 ∧ InstructionWidths .ADD ≠ 1 + 6 := by
  decide

/-- C5 amended. For every opcode of `InstructionWidths` the declared width is
`sizeof(MemoryAddress) * (1 + number of arguments)`, the tag slot being counted
as two bytes: `NOP = 2`, `ADD = SUB = MUL = DIV = 8`, `IF_ZERO = 6`,
`LOAD = STORE = 4`; for the opcodes shared with the disassembler (`NOP`, `ADD`,
`SUB`, `MUL`, `DIV`) it is one more than the number of bytes the disassembler
advances for that tag. -/
theorem instruction_widths_table (E : Disassembler.Encoding) (w : Disassembler.Walk)
    (c : InstructionCodes) (d : Disassembler.Code) (hs : c.shared = some d)
    (h : Disassembler.decode E (Disassembler.tagAt E w) = some d) :
    InstructionWidths .NOP = 2 ∧ InstructionWidths .ADD = 8 ∧ InstructionWidths .SUB = 8 ∧
    InstructionWidths .MUL = 8 ∧ InstructionWidths .DIV = 8 ∧ InstructionWidths .IF_ZERO = 6 ∧
    InstructionWidths .LOAD = 4 ∧ InstructionWidths .STORE = 4 ∧
    InstructionWidths c = Disassembler.sizeof_Code + Disassembler.sizeof_Args d + 1 ∧
    (Disassembler.iteration E w).addr = (w.addr + (InstructionWidths c - 1)) % addressSpace := by
  have hi := (Disassembler.iteration_of_some E w d h).2.1
  have hw : InstructionWidths c = Disassembler.sizeof_Code + Disassembler.sizeof_Args d + 1 := by
    cases c <;> simp [InstructionCodes.shared] at hs <;> subst hs <;> decide
  refine ⟨by decide, by decide, by decide, by decide, by decide, by decide, by decide,
    by decide, hw, ?_⟩
  rw [hi, hw, Nat.add_sub_cancel, Nat.add_assoc]

/-- Witness of C5 amended: `ADD` at the start of a walk. -/
theorem instruction_widths_table_witness :
    InstructionCodes.ADD.shared = some .ADD ∧
    Disassembler.decode Disassembler.Encoding.sample
      (Disassembler.tagAt Disassembler.Encoding.sample
        (Disassembler.Walk.start (Disassembler.machineWith 0 1) 0)) = some .ADD ∧
    InstructionWidths .ADD = Disassembler.sizeof_Code + Disassembler.sizeof_Args .ADD + 1 ∧
    (Disassembler.iteration Disassembler.Encoding.sample
      (Disassembler.Walk.start (Disassembler.machineWith 0 1) 0)).addr
        = (0 + (InstructionWidths .ADD - 1)) % addressSpace :=
  have hw := instruction_widths_table Disassembler.Encoding.sample
    (Disassembler.Walk.start (Disassembler.machineWith 0 1) 0) .ADD .ADD rfl (by decide)
  ⟨rfl, by decide, hw.2.2.2.2.2.2.2.2.1, hw.2.2.2.2.2.2.2.2.2⟩

end Machine

namespace Disassembler
open Machine

/-- C4. Disassembler advance width: when the tag at the cursor is recognised as
opcode `c`, one iteration of the loop leaves the cursor at `addr + 1 +` the byte
size of the argument record of `c` (in `u16` arithmetic; exactly that sum when
it fits, which it does for every cursor inside memory); `NOP` has a zero-width
argument, so its advance is 1.  The advance is a function of the tag alone: two
iterations that start at the same cursor and read the same opcode end at the
same cursor, whatever the argument bytes are. -/
theorem iteration_advance (E : Encoding) (w : Walk) (c : Code)
    (h : decode E (tagAt E w) = some c) :
    (iteration E w).addr = (w.addr + 1 + sizeof_Args c) % addressSpace ∧
    (w.addr + 1 + sizeof_Args c < addressSpace →
      (iteration E w).addr = w.addr + 1 + sizeof_Args c) ∧
    sizeof_Args .NOP = 0 ∧
    (c = .NOP → (iteration E w).addr = (w.addr + 1) % addressSpace) ∧
    ∀ w2 : Walk, w2.addr = w.addr → decode E (tagAt E w2) = some c →
      (iteration E w2).addr = (iteration E w).addr := by
  have hi := (iteration_of_some E w c h).2.1
  simp only [sizeof_Code] at hi
  refine ⟨hi, fun hlt => ?_, rfl, fun hc => ?_, fun w2 ha h2 => ?_⟩
  · rw [hi, Nat.mod_eq_of_lt hlt]
  · rw [hi, hc]; rfl
  · have hi2 := (iteration_of_some E w2 c h2).2.1
    simp only [sizeof_Code] at hi2
    rw [hi, hi2, ha]

/-- Witness of C4: `SET_V` (tag 21 in the sample encoding) at address 2. -/
theorem iteration_advance_witness :
    decode Encoding.sample
      (tagAt Encoding.sample (Walk.start (machineOf [2, 0, 21, 0, 1, 0x2A, 0]) 2)) = some .SET_V ∧
    (iteration Encoding.sample (Walk.start (machineOf [2, 0, 21, 0, 1, 0x2A, 0]) 2)).addr
      = (2 + 1 + sizeof_Args .SET_V) % addressSpace :=
  ⟨by decide,
   (iteration_advance Encoding.sample (Walk.start (machineOf [2, 0, 21, 0, 1, 0x2A, 0]) 2)
      .SET_V (by decide)).1⟩

end Disassembler

namespace Disassembler
open Machine

/-- C6 fails on the code. With `from = 0x3FFF` and `to = 0x4000 = size`, a
memory whose last byte is the tag of `ADD` makes the walk read the six bytes
`0x4000 .. 0x4005`, which lie at or past `to` and outside memory, and leave the
cursor at `0x4006 > to`, so that `assert(addr <= to)` fails. -/
theorem disassemble_reads_past_end (E : Encoding) (machine : Machine.Machine)
    (h : decode E (tagAt E (Walk.start machine 0x3FFF)) = some .ADD) :
    0x3FFF ≤ 0x4000 ∧ 0x4000 ≤ size 128 128 ∧
    (disassemble E machine 0x3FFF 0x4000).1 = .assertFailed ∧
    (disassemble E machine 0x3FFF 0x4000).2.addr = 0x4006 ∧
    (disassemble E machine 0x3FFF 0x4000).2.reads
      = [0x3FFF, 0x4000, 0x4001, 0x4002, 0x4003, 0x4004, 0x4005] := by
  have hi := iteration_of_some E (Walk.start machine 0x3FFF) .ADD h
  have ha : (iteration E (Walk.start machine 0x3FFF)).addr = 0x4006 := by
    rw [hi.2.1]; rfl
  have hr : (iteration E (Walk.start machine 0x3FFF)).reads
      = [0x3FFF, 0x4000, 0x4001, 0x4002, 0x4003, 0x4004, 0x4005] := by
    rw [hi.2.2.1]; rfl
  have hd : disassemble E machine 0x3FFF 0x4000
      = (.assertFailed, iteration E (Walk.start machine 0x3FFF)) := by
    have hlt : (Walk.start machine 0x3FFF).addr < 0x4000 := by
      show 0x3FFF < 0x4000
      decide
    exact loop_assert E 0x4000 65535 (Walk.start machine 0x3FFF) hlt (by rw [ha]; decide)
  rw [hd]
  exact ⟨by decide, by decide, rfl, ha, hr⟩

/-- Witness of C6's failing input in the sample encoding (`ADD` has tag 1). -/
theorem disassemble_reads_past_end_witness :
    decode Encoding.sample (tagAt Encoding.sample (Walk.start (machineWith 0x3FFF 1) 0x3FFF))
      = some .ADD ∧
    (disassemble Encoding.sample (machineWith 0x3FFF 1) 0x3FFF 0x4000).1 = .assertFailed ∧
    (disassemble Encoding.sample (machineWith 0x3FFF 1) 0x3FFF 0x4000).2.addr = 0x4006 :=
  have hw := disassemble_reads_past_end Encoding.sample (machineWith 0x3FFF 1) (by decide)
  ⟨by decide, hw.2.2.1, hw.2.2.2.1⟩

/-- C7, as stated, fails: in the range `[0, 2)` the byte `0xff` at address 0 is
not a tag, its line is the marker, and the walk does not stop there: the `NOP`
at address 1 is decoded and a second line is printed. -/
theorem unrecognised_does_not_stop :
    decode Encoding.sample (tagAt Encoding.sample (Walk.start (machineOf [0xff, 0]) 0)) = none ∧
    (disassemble Encoding.sample (machineOf [0xff, 0]) 0 2).1 = .finished ∧
    (disassemble Encoding.sample (machineOf [0xff, 0]) 0 2).2.lines
      = ["0000 (1) Unrecognised code: 0xff\n", "0x0001 (1) :  NOP\n"] ∧
    (disassemble Encoding.sample (machineOf [0xff, 0]) 0 2).2.reads = [0, 1] := by
  decide

/-- C7 amended. When the walk reads, at an address `p` of the range, a byte that
is no opcode tag, the line for `p` is `<p> (1) Unrecognised code: <byte>`, only
the byte at `p` is read, and the walk goes on at `p + 1`: the loop continues
with the state after that line. -/
theorem unrecognised_continues (E : Encoding) (w : Walk) (to_addr fuel : Nat)
    (hlt : w.addr < to_addr) (hto : to_addr < addressSpace)
    (h : decode E (tagAt E w) = none) :
    (iteration E w).lines = w.lines ++
      [x4 w.addr ++ " (" ++ lu sizeof_Code ++ ") Unrecognised code: " ++ hhx2 (tagAt E w)
        ++ "\n"] ∧
    (iteration E w).addr = w.addr + 1 ∧
    (iteration E w).reads = w.reads ++ [w.addr] ∧
    loop E to_addr (fuel + 1) w = loop E to_addr fuel (iteration E w) := by
  have hi := iteration_of_none E w h
  have hspace : addressSpace = 65536 := rfl
  have hlt2 : @LT.lt Nat _ w.addr to_addr := hlt
  have ha : @Eq Nat (iteration E w).addr (w.addr + 1) := by
    rw [hi]
    exact Nat.mod_eq_of_lt (by omega)
  refine ⟨by rw [hi], ha, by rw [hi], ?_⟩
  have hle : @LE.le Nat _ (iteration E w).addr to_addr := by omega
  exact loop_continue E to_addr fuel w hlt hle

/-- Witness of C7 amended: the byte `0xff` at address 0 of the range `[0, 2)`. -/
theorem unrecognised_continues_witness :
    (iteration Encoding.sample (Walk.start (machineOf [0xff, 0]) 0)).addr = 0 + 1 ∧
    loop Encoding.sample 2 (1 + 1) (Walk.start (machineOf [0xff, 0]) 0)
      = loop Encoding.sample 2 1 (iteration Encoding.sample (Walk.start (machineOf [0xff, 0]) 0)) :=
  have hw := unrecognised_continues Encoding.sample (Walk.start (machineOf [0xff, 0]) 0) 2 1
    (by decide) (by decide) (by decide)
  ⟨hw.2.1, hw.2.2.2⟩

end Disassembler

namespace Disassembler
open Machine

theorem mnemonic_disassemble_args (c : Code) (args : Nat → Nat) :
    mnemonic (disassemble_args c args) =
      if c = .NOP then "" else if c = .SET_W then "GET_W" else c.name := by
  cases c <;> rfl

theorem name_injective (c c2 : Code) (h : c.name = c2.name) : c = c2 := by
  cases c <;> cases c2 <;> first | rfl | (exact absurd h (by decide))

theorem disassemble_args_split (c : Code) (args : Nat → Nat) (hc : c ≠ .NOP) :
    disassemble_args c args = mnemonic (disassemble_args c args) ++ " " ++ Args.text c args := by
  rw [mnemonic_disassemble_args]
  cases c <;>
    first
    | exact absurd rfl hc
    | simp [disassemble_args, Args.text, Args.fields, Args.label, Code.name, String.intercalate,
        String.intercalate.go, List.enum, List.enumFrom, String.ext_iff]

theorem printf_hex_body_length (prec : Nat) (ds : List Char) :
    prec ≤ (List.replicate (prec - ds.length) '0' ++ ds).length := by
  rw [List.length_append, List.length_replicate]
  omega

theorem printf_hex_zero (prec : Nat) :
    printf_hex prec 0 = String.mk (List.replicate (prec - 1) '0' ++ ['0']) := by
  rfl

theorem printf_hex_nonzero (prec n : Nat) (h : n ≠ 0) :
    printf_hex prec n = "0x" ++
      String.mk (List.replicate (prec - (Nat.toDigits 16 n).length) '0' ++ Nat.toDigits 16 n) := by
  simp [printf_hex, h]

theorem printf_hex_length (prec n : Nat) : prec ≤ (printf_hex prec n).length := by
  by_cases h : n = 0
  · subst h
    rw [printf_hex_zero]
    exact printf_hex_body_length prec ['0']
  · rw [printf_hex_nonzero prec n h, String.length_append]
    have := printf_hex_body_length prec (Nat.toDigits 16 n)
    show prec ≤ "0x".length + (List.replicate _ _ ++ _).length
    omega

/-- C8, as stated, fails: `JUMP_V` with `addr = 0` renders as `JUMP_V 0000`; the
field is not labelled with its name and a zero value carries no `0x`. -/
theorem jump_v_zero_rendering :
    disassemble_args .JUMP_V (fun _ => 0) = "JUMP_V 0000" ∧
    disassemble_args .JUMP_V (fun _ => 0) ≠ "JUMP_V addr=0x0000" := by
  decide

/-- The mnemonic `disassemble_args<SET_W>` prints is that of `GET_W`. -/
theorem set_w_mnemonic (args : Nat → Nat) :
    mnemonic (disassemble_args .SET_W args) = "GET_W" ∧
    mnemonic (disassemble_args .SET_W args) = mnemonic (disassemble_args .GET_W args) :=
  ⟨rfl, rfl⟩

/-- C8 amended. For every one of the 28 opcodes with a `disassemble_args`, the
text is a mnemonic, a blank, and the argument fields of the record in order,
separated by `, `, each labelled `field=` (the one field of `JUMP_V` and of
`JUMP` is printed bare) and printed in hexadecimal with at least 4 digits, `0x`
in front of a nonzero value and none in front of zero (`0000`).  For every opcode
other than `SET_W` the mnemonic is the opcode's own name, so two different
opcodes other than `SET_W` never render the same mnemonic. -/
theorem disassemble_args_rendering (c : Code) (args : Nat → Nat) (hc : c ≠ .NOP) :
    disassemble_args c args = mnemonic (disassemble_args c args) ++ " " ++ Args.text c args ∧
    (c ≠ .SET_W → mnemonic (disassemble_args c args) = c.name) ∧
    (∀ (c2 : Code) (args2 : Nat → Nat), c ≠ .SET_W → c2 ≠ .NOP → c2 ≠ .SET_W →
      mnemonic (disassemble_args c args) = mnemonic (disassemble_args c2 args2) → c = c2) ∧
    x4 0 = "0000" ∧
    (∀ n, 4 ≤ (x4 n).length) ∧
    (∀ n, n % 2 ^ 32 ≠ 0 → ∃ digits : String, x4 n = "0x" ++ digits ∧ 4 ≤ digits.length) := by
  refine ⟨disassemble_args_split c args hc, fun h => ?_, fun c2 args2 h1 h2 h3 h => ?_,
    by decide, fun n => printf_hex_length 4 _, fun n hn => ?_⟩
  · rw [mnemonic_disassemble_args, if_neg hc, if_neg h]
  · rw [mnemonic_disassemble_args, mnemonic_disassemble_args, if_neg hc, if_neg h1, if_neg h2,
      if_neg h3] at h
    exact name_injective c c2 h
  · exact ⟨_, printf_hex_nonzero 4 _ hn, printf_hex_body_length 4 _⟩

/-- Witness of C8 amended: `SET_V addr=0x0100, value=0x002a`. -/
theorem disassemble_args_rendering_witness :
    Code.SET_V ≠ Code.NOP ∧
    disassemble_args .SET_V (fun i => if i = 0 then 0x0100 else 0x002A)
      = "SET_V addr=0x0100, value=0x002a" ∧
    mnemonic (disassemble_args .SET_V (fun i => if i = 0 then 0x0100 else 0x002A))
      = Code.SET_V.name :=
  ⟨by decide, by decide,
   (disassemble_args_rendering .SET_V (fun i => if i = 0 then 0x0100 else 0x002A)
      (by decide)).2.1 (by decide)⟩

end Disassembler

namespace Disassembler
open Machine

theorem sizeof_Args_le (c : Code) : sizeof_Args c ≤ 6 := by
  cases c <;> decide

theorem iteration_lines_length (E : Encoding) (w : Walk) :
    (iteration E w).lines.length = w.lines.length + 1 := by
  cases h : decode E (tagAt E w) with
  | none => rw [iteration_of_none E w h]; simp
  | some c => exact (iteration_of_some E w c h).2.2.2

theorem iteration_progress (E : Encoding) (w : Walk) (a : Nat) (ha : w.addr = a)
    (hlt : a + 7 < addressSpace) :
    a + 1 ≤ (iteration E w).addr ∧ (iteration E w).addr ≤ a + 1 + 6 := by
  have hspace : addressSpace = 65536 := rfl
  cases h : decode E (tagAt E w) with
  | none =>
    rw [iteration_of_none E w h]
    show a + 1 ≤ (w.addr + 1) % addressSpace ∧ (w.addr + 1) % addressSpace ≤ a + 1 + 6
    rw [ha, Nat.mod_eq_of_lt (by omega)]
    exact ⟨Nat.le_refl _, Nat.le_add_right _ _⟩
  | some c =>
    have hc := sizeof_Args_le c
    rw [(iteration_of_some E w c h).2.1, ha]
    simp only [sizeof_Code]
    rw [Nat.mod_eq_of_lt (by omega)]
    exact ⟨Nat.le_add_right _ _, Nat.add_le_add_left hc _⟩

theorem loop_of_ge (E : Encoding) (to_addr fuel : Nat) (w : Walk) (a : Nat) (ha : w.addr = a)
    (hge : to_addr ≤ a) : loop E to_addr fuel w = (.finished, w) := by
  have hn : ¬ (w.addr < to_addr) := by
    rw [ha]
    exact Nat.not_lt.mpr hge
  cases fuel with
  | zero => simp [loop, hn]
  | succ n => simp [loop, hn]

theorem loop_bounded (E : Encoding) (to_addr : Nat) (hto : to_addr ≤ 0x4000) (fuel : Nat) :
    ∀ (w : Walk) (a : Nat), w.addr = a → to_addr - a ≤ fuel →
      (loop E to_addr fuel w).1 ≠ .running ∧
      (loop E to_addr fuel w).2.lines.length ≤ w.lines.length + (to_addr - a) ∧
      ∀ fuel2, to_addr - a ≤ fuel2 → loop E to_addr fuel2 w = loop E to_addr fuel w := by
  have hspace : addressSpace = 65536 := rfl
  induction fuel with
  | zero =>
    intro w a ha hfuel
    have hge : to_addr ≤ a := by omega
    rw [loop_of_ge E to_addr 0 w a ha hge]
    exact ⟨by simp, by simp, fun fuel2 _ => loop_of_ge E to_addr fuel2 w a ha hge⟩
  | succ n ih =>
    intro w a ha hfuel
    by_cases hlt : a < to_addr
    · have hlt2 : w.addr < to_addr := by rw [ha]; exact hlt
      have hp := iteration_progress E w a ha (by omega)
      have hl := iteration_lines_length E w
      by_cases hle : (iteration E w).addr ≤ to_addr
      · have hle2 : @LE.le Nat _ (iteration E w).addr to_addr := hle
        have hrec := ih (iteration E w) (iteration E w).addr rfl (by omega)
        rw [loop_continue E to_addr n w hlt2 hle]
        refine ⟨hrec.1, ?_, fun fuel2 hf2 => ?_⟩
        · have := hrec.2.1
          omega
        · cases fuel2 with
          | zero => omega
          | succ k =>
            rw [loop_continue E to_addr k w hlt2 hle]
            exact hrec.2.2 k (by omega)
      · rw [loop_assert E to_addr n w hlt2 hle]
        refine ⟨by simp, ?_, fun fuel2 hf2 => ?_⟩
        · show (iteration E w).lines.length ≤ w.lines.length + (to_addr - a)
          omega
        · cases fuel2 with
          | zero => omega
          | succ k => rw [loop_assert E to_addr k w hlt2 hle]
    · have hge : to_addr ≤ a := Nat.not_lt.mp hlt
      rw [loop_of_ge E to_addr (n + 1) w a ha hge]
      exact ⟨by simp, by simp, fun fuel2 _ => loop_of_ge E to_addr fuel2 w a ha hge⟩

end Disassembler

namespace Machine

theorem fromBytes_congr (o : ByteOrder) (k : Nat) (b1 b2 : Nat → Nat)
    (h : ∀ i, i < k → b1 i = b2 i) : fromBytes o k b1 = fromBytes o k b2 := by
  unfold fromBytes
  congr 1
  apply List.map_congr_left
  intro i hi
  rw [h i (List.mem_range.mp hi)]

theorem get_set_other {w h : Nat} (o : ByteOrder) (T T2 : Scalar) (m : Memory w h)
    (p v q : Nat) (hq : q + T.sizeof ≤ p ∨ p + T2.sizeof ≤ q) :
    (get o T (set o T2 m p v) q).1 = (get o T m q).1 := by
  show fromBytes o T.sizeof (fun i => (store o T2 m p v).bytes (q + i))
    = fromBytes o T.sizeof (fun i => m.bytes (q + i))
  apply fromBytes_congr
  intro i hi
  exact store_bytes_outside o T2 m p v (q + i) (by omega)

theorem advance_of_decode (S : Semantics) (machine : Machine) (c : Disassembler.Code)
    (hb : next_instruction S.encoding.order machine + Disassembler.sizeof_Code
      + Disassembler.sizeof_Args c ≤ size 128 128)
    (hc : Disassembler.decode S.encoding
      (get S.encoding.order .u8 machine.memory
        (next_instruction S.encoding.order machine)).1 = some c) :
    advance S machine =
      apply_effect S c
        (read_args S.encoding.order machine
          (next_instruction S.encoding.order machine + Disassembler.sizeof_Code))
        (set_next_instruction S.encoding.order machine
          (next_instruction S.encoding.order machine + Disassembler.sizeof_Code
            + Disassembler.sizeof_Args c)) := by
  have hb1 : next_instruction S.encoding.order machine + Disassembler.sizeof_Code
      ≤ size 128 128 := by omega
  simp only [advance, hb1, hb, hc, if_true]

end Machine

namespace Machine

/-- C11. Stepper scenario: in the memory of size `0x4000`, when the
instruction-pointer slot at address 0 holds `0x0002` and the bytes at `0x0002`
encode `SET_V addr=0x0100 value=0x002A`, one step succeeds and leaves
`memory[0x0100] = 0x002A` and the instruction pointer equal to
`0x0002 + width(SET_V) = 0x0007`.  In general a step whose tag decodes to `c`
and whose record lies inside memory applies the effect of `c` to the machine
whose pointer has already been advanced by the tag width plus the argument
width; for `NOP` that advanced pointer is the only change. -/
theorem advance_set_v_scenario (S : Semantics) (machine : Machine)
    (hip : next_instruction S.encoding.order machine = 0x0002)
    (htag : Disassembler.decode S.encoding
      (get S.encoding.order .u8 machine.memory 0x0002).1 = some .SET_V)
    (haddr : read_args S.encoding.order machine 0x0003 0 = 0x0100)
    (hvalue : read_args S.encoding.order machine 0x0003 1 = 0x002A) :
    size 128 128 = 0x4000 ∧
    (advance S machine).map (fun m => (get S.encoding.order S.base m.memory 0x0100).1)
      = .ok 0x002A ∧
    (advance S machine).map (next_instruction S.encoding.order)
      = .ok (0x0002 + (Disassembler.sizeof_Code + Disassembler.sizeof_Args .SET_V)) ∧
    0x0002 + (Disassembler.sizeof_Code + Disassembler.sizeof_Args .SET_V) = 0x0007 ∧
    (∀ (machine2 : Machine) (c : Disassembler.Code),
      next_instruction S.encoding.order machine2 + Disassembler.sizeof_Code
        + Disassembler.sizeof_Args c ≤ size 128 128 →
      Disassembler.decode S.encoding
        (get S.encoding.order .u8 machine2.memory
          (next_instruction S.encoding.order machine2)).1 = some c →
      advance S machine2 =
        apply_effect S c
          (read_args S.encoding.order machine2
            (next_instruction S.encoding.order machine2 + Disassembler.sizeof_Code))
          (set_next_instruction S.encoding.order machine2
            (next_instruction S.encoding.order machine2 + Disassembler.sizeof_Code
              + Disassembler.sizeof_Args c))) ∧
    (∀ machine2 : Machine,
      next_instruction S.encoding.order machine2 + Disassembler.sizeof_Code ≤ size 128 128 →
      Disassembler.decode S.encoding
        (get S.encoding.order .u8 machine2.memory
          (next_instruction S.encoding.order machine2)).1 = some .NOP →
      (advance S machine2).map (next_instruction S.encoding.order)
        = .ok (next_instruction S.encoding.order machine2 + Disassembler.sizeof_Code)) := by
  have hsize : size 128 128 = 0x4000 := by decide
  have hstep : advance S machine =
      .ok ⟨set S.encoding.order S.base
        (set S.encoding.order .u16 machine.memory Reserved.NI 0x0007) 0x0100 0x002A⟩ := by
    have hb : next_instruction S.encoding.order machine + Disassembler.sizeof_Code
        + Disassembler.sizeof_Args .SET_V ≤ size 128 128 := by
      rw [hip]; decide
    have hdest : 0x0100 + S.base.sizeof ≤ size 128 128 := by
      rw [hsize]; cases S.base <;> decide
    rw [advance_of_decode S machine .SET_V hb (by rw [hip]; exact htag), hip]
    show immediate_store S.encoding.order S.base _
      (read_args S.encoding.order machine 0x0003 0) (read_args S.encoding.order machine 0x0003 1)
      = _
    rw [haddr, hvalue]
    simp only [immediate_store, hdest, if_true]
    rfl
  refine ⟨hsize, ?_, ?_, by decide, fun machine2 c hb hc => advance_of_decode S machine2 c hb hc,
    fun machine2 hb hc => ?_⟩
  · rw [hstep]
    show Except.ok (get S.encoding.order S.base
      (set S.encoding.order S.base _ 0x0100 0x002A) 0x0100).1 = Except.ok 0x002A
    rw [get_set_value]
    cases S.base <;> rfl
  · rw [hstep]
    show Except.ok (get S.encoding.order .u16 _ Reserved.NI).1 = Except.ok _
    rw [get_set_other S.encoding.order .u16 S.base _ 0x0100 0x002A Reserved.NI
      (Or.inl (by decide)), get_set_value]
    rfl
  · rw [advance_of_decode S machine2 .NOP hb hc]
    show Except.ok (get S.encoding.order .u16 _ Reserved.NI).1 = Except.ok _
    have hlt : next_instruction S.encoding.order machine2 + Disassembler.sizeof_Code
        < addressSpace := by
      have hspace : addressSpace = 65536 := rfl
      omega
    simp only [set_next_instruction]
    rw [get_set_value]
    show Except.ok ((next_instruction S.encoding.order machine2 + Disassembler.sizeof_Code)
      % addressSpace % 65536) = _
    have hlt2 : next_instruction S.encoding.order machine2 + Disassembler.sizeof_Code
        < 65536 := hlt
    rw [Nat.mod_eq_of_lt hlt, Nat.mod_eq_of_lt hlt2]

/-- Witness of C11: the scenario in the sample encoding (little-endian, `SET_V`
has tag 21, 16-bit operands). -/
theorem advance_set_v_scenario_witness :
    (advance Semantics.sample (Disassembler.machineOf [2, 0, 21, 0x00, 0x01, 0x2A, 0x00])).map
      (fun m => (get .little .u16 m.memory 0x0100).1) = .ok 0x002A ∧
    (advance Semantics.sample (Disassembler.machineOf [2, 0, 21, 0x00, 0x01, 0x2A, 0x00])).map
      (next_instruction .little) = .ok 0x0007 :=
  have hw := advance_set_v_scenario Semantics.sample
    (Disassembler.machineOf [2, 0, 21, 0x00, 0x01, 0x2A, 0x00])
    (by decide) (by decide) (by decide) (by decide)
  ⟨hw.2.1, hw.2.2.1⟩

end Machine

namespace Disassembler
open Machine

/-- C12. Disassembler termination and progress: for every memory and every
`from`, `to` with `to <= size` (`0x4000`), `disassemble` terminates, with the same
result for every iteration budget of at least `to - from`; each loop iteration,
whether the tag is recognised or not, prints one line and increases the cursor
by at least 1 and at most `1 + 6`, without wrapping around; so at most
`to - from` lines are emitted, and for `from >= to` the walk reads nothing and
emits nothing. -/
theorem disassemble_terminates (E : Encoding) (machine : Machine.Machine)
    (from_addr to_addr : Nat) (hto : to_addr ≤ size 128 128) :
    (disassemble E machine from_addr to_addr).1 ≠ .running ∧
    (∀ fuel, to_addr - from_addr ≤ fuel →
      loop E to_addr fuel (Walk.start machine from_addr)
        = disassemble E machine from_addr to_addr) ∧
    (∀ (w : Walk) (a : Nat), w.addr = a → a < to_addr →
      a + 1 ≤ (iteration E w).addr ∧ (iteration E w).addr ≤ a + 1 + 6 ∧
      (iteration E w).lines.length = w.lines.length + 1) ∧
    (disassemble E machine from_addr to_addr).2.lines.length ≤ to_addr - from_addr ∧
    (to_addr ≤ from_addr →
      disassemble E machine from_addr to_addr = (.finished, Walk.start machine from_addr) ∧
      (disassemble E machine from_addr to_addr).2.reads = [] ∧
      (disassemble E machine from_addr to_addr).2.lines = []) := by
  have hsize : size 128 128 = 0x4000 := by decide
  have hspace : addressSpace = 65536 := rfl
  have hto2 : to_addr ≤ 0x4000 := by omega
  have hb := loop_bounded E to_addr hto2 addressSpace (Walk.start machine from_addr) from_addr
    rfl (by omega)
  refine ⟨hb.1, fun fuel hf => hb.2.2 fuel hf, fun w a ha hlt => ?_, ?_, fun hge => ?_⟩
  · have hp := iteration_progress E w a ha (by omega)
    exact ⟨hp.1, hp.2, iteration_lines_length E w⟩
  · have := hb.2.1
    simpa [Walk.start] using this
  · have hd : disassemble E machine from_addr to_addr = (.finished, Walk.start machine from_addr) :=
      loop_of_ge E to_addr addressSpace (Walk.start machine from_addr) from_addr rfl hge
    rw [hd]
    exact ⟨rfl, rfl, rfl⟩

/-- Witness of C12: a walk over `[0, 9)` of a nine-byte program. -/
theorem disassemble_terminates_witness :
    (9 : Nat) ≤ size 128 128 ∧
    (disassemble Encoding.sample (machineOf [1, 1, 0, 2, 0, 3, 0, 0xff, 0]) 0 9).1 ≠ .running ∧
    (disassemble Encoding.sample (machineOf [1, 1, 0, 2, 0, 3, 0, 0xff, 0]) 0 9).2.lines.length
      ≤ 9 - 0 :=
  have hw := disassemble_terminates Encoding.sample (machineOf [1, 1, 0, 2, 0, 3, 0, 0xff, 0]) 0 9
    (by decide)
  ⟨by decide, hw.1, hw.2.2.2.1⟩

end Disassembler

namespace Disassembler
open Machine

theorem get_congr {w h : Nat} (o : ByteOrder) (T : Scalar) (m1 m2 : Memory w h) (q : Nat)
    (hcells : ∀ j, j < T.sizeof → m2.bytes (q + j) = m1.bytes (q + j)) :
    (Machine.get o T m2 q).1 = (Machine.get o T m1 q).1 := by
  show fromBytes o T.sizeof (fun i => m2.bytes (q + i))
    = fromBytes o T.sizeof (fun i => m1.bytes (q + i))
  exact fromBytes_congr o T.sizeof _ _ hcells

theorem disassemble_args_congr (c : Code) (a1 a2 : Nat → Nat)
    (h : ∀ i, i < (Args.fields c).length → a1 i = a2 i) :
    disassemble_args c a1 = disassemble_args c a2 := by
  cases c <;> simp only [disassemble_args] <;>
    first
    | rw [h 0 (by decide), h 1 (by decide), h 2 (by decide)]
    | rw [h 0 (by decide), h 1 (by decide)]
    | rw [h 0 (by decide)]

theorem iteration_of_some_eq (E : Encoding) (w : Walk) (c : Code)
    (h : decode E (tagAt E w) = some c) :
    iteration E w =
      { machine := w.machine,
        addr := (w.addr + sizeof_Code + sizeof_Args c) % addressSpace,
        lines := w.lines ++
          [x4 w.addr ++ " (" ++ lu sizeof_Code ++
            (if c = .NOP then ") :  NOP"
             else "+" ++ lu (sizeof_Args c) ++ ") :  " ++
               disassemble_args c (fun i =>
                 (Machine.get E.order .u16 w.machine.memory
                   ((w.addr + 1) % addressSpace + sizeof_MemoryAddress * i)).1))
            ++ "\n"],
        reads := w.reads ++ [w.addr] ++
          List.range' ((w.addr + 1) % addressSpace) (sizeof_Args c) } := by
  unfold tagAt at h
  cases c <;>
    simp [iteration, advance_addr_u8, h, disassemble_instruction, advance_addr_args,
      sizeof_Args, sizeof_Code, Args.fields, sizeof_MemoryAddress, addressSpace]

end Disassembler

namespace Disassembler
open Machine

theorem iteration_reads_of_some (E : Encoding) (w : Walk) (c : Code)
    (h : decode E (tagAt E w) = some c) (p : Nat) :
    p ∈ (iteration E w).reads ↔
      p ∈ w.reads ∨ p = w.addr ∨
        ((w.addr + 1) % addressSpace ≤ p ∧ p < (w.addr + 1) % addressSpace + sizeof_Args c) := by
  rw [(iteration_of_some E w c h).2.2.1]
  simp [List.mem_range']
  constructor
  · rintro (h1 | h1 | ⟨i, hi, rfl⟩)
    · exact Or.inl h1
    · exact Or.inr (Or.inl h1)
    · exact Or.inr (Or.inr ⟨Nat.le_add_right _ _, Nat.add_lt_add_left hi _⟩)
  · rintro (h1 | h1 | ⟨h1, h2⟩)
    · exact Or.inl h1
    · exact Or.inr (Or.inl h1)
    · have h3 : @LE.le Nat _ ((w.addr + 1) % addressSpace) p := h1
      have h4 : @LT.lt Nat _ p ((w.addr + 1) % addressSpace + sizeof_Args c) := h2
      exact Or.inr (Or.inr ⟨p - (w.addr + 1) % addressSpace, by omega, by omega⟩)

theorem iteration_reads_of_none (E : Encoding) (w : Walk)
    (h : decode E (tagAt E w) = none) (p : Nat) :
    p ∈ (iteration E w).reads ↔ p ∈ w.reads ∨ p = w.addr := by
  rw [iteration_of_none E w h]
  simp

theorem iteration_reads_mono (E : Encoding) (w : Walk) (p : Nat) (hp : p ∈ w.reads) :
    p ∈ (iteration E w).reads := by
  cases h : decode E (tagAt E w) with
  | none => exact (iteration_reads_of_none E w h p).mpr (Or.inl hp)
  | some c => exact (iteration_reads_of_some E w c h p).mpr (Or.inl hp)

theorem loop_reads_mono (E : Encoding) (to_addr fuel : Nat) :
    ∀ (w : Walk) (p : Nat), p ∈ w.reads → p ∈ (loop E to_addr fuel w).2.reads := by
  induction fuel with
  | zero => intro w p hp; simpa [loop] using hp
  | succ n ih =>
    intro w p hp
    by_cases hlt : w.addr < to_addr
    · by_cases hle : (iteration E w).addr ≤ to_addr
      · rw [loop_continue E to_addr n w hlt hle]
        exact ih _ p (iteration_reads_mono E w p hp)
      · rw [loop_assert E to_addr n w hlt hle]
        exact iteration_reads_mono E w p hp
    · simpa [loop, hlt] using hp

theorem iteration_congr (E : Encoding) (w : Walk) (m2 : Machine.Machine)
    (hw : w.addr + 1 < addressSpace)
    (hcells : ∀ p, p ∈ (iteration E w).reads →
      m2.memory.bytes p = w.machine.memory.bytes p) :
    iteration E ⟨m2, w.addr, w.lines, w.reads⟩
      = ⟨m2, (iteration E w).addr, (iteration E w).lines, (iteration E w).reads⟩ := by
  have hmod : (w.addr + 1) % addressSpace = w.addr + 1 := Nat.mod_eq_of_lt hw
  cases h : decode E (tagAt E w) with
  | none =>
    have hcell := hcells w.addr ((iteration_reads_of_none E w h w.addr).mpr (Or.inr rfl))
    have htag : tagAt E ⟨m2, w.addr, w.lines, w.reads⟩ = tagAt E w :=
      get_congr E.order .u8 w.machine.memory m2.memory w.addr (fun j hj => by
        have hj0 : j = 0 := Nat.lt_one_iff.mp hj
        rw [hj0]; exact hcell)
    have h2 : decode E (tagAt E ⟨m2, w.addr, w.lines, w.reads⟩) = none := by rw [htag]; exact h
    rw [iteration_of_none E _ h2, iteration_of_none E w h, htag]
  | some c =>
    have hcell := hcells w.addr ((iteration_reads_of_some E w c h w.addr).mpr (Or.inr (Or.inl rfl)))
    have htag : tagAt E ⟨m2, w.addr, w.lines, w.reads⟩ = tagAt E w :=
      get_congr E.order .u8 w.machine.memory m2.memory w.addr (fun j hj => by
        have hj0 : j = 0 := Nat.lt_one_iff.mp hj
        rw [hj0]; exact hcell)
    have h2 : decode E (tagAt E ⟨m2, w.addr, w.lines, w.reads⟩) = some c := by
      rw [htag]; exact h
    have hargs : ∀ i, i < (Args.fields c).length →
        (Machine.get E.order .u16 m2.memory
          ((w.addr + 1) % addressSpace + sizeof_MemoryAddress * i)).1
        = (Machine.get E.order .u16 w.machine.memory
          ((w.addr + 1) % addressSpace + sizeof_MemoryAddress * i)).1 := by
      intro i hi
      apply get_congr
      intro j hj
      apply hcells
      apply (iteration_reads_of_some E w c h _).mpr
      refine Or.inr (Or.inr ⟨?_, ?_⟩)
      · rw [Nat.add_assoc]; exact Nat.le_add_right _ _
      · have h1 : sizeof_Args c = 2 * (Args.fields c).length := rfl
        have h2 : sizeof_MemoryAddress = 2 := rfl
        have h3 : Scalar.u16.sizeof = 2 := rfl
        rw [h1, h2]
        rw [h3] at hj
        omega
    have hd := disassemble_args_congr c _ _ hargs
    rw [iteration_of_some_eq E _ c h2, iteration_of_some_eq E w c h]
    simp only [hd]

end Disassembler

namespace Disassembler
open Machine

theorem loop_congr (E : Encoding) (to_addr : Nat) (hto : to_addr < addressSpace)
    (m2 : Machine.Machine) (fuel : Nat) :
    ∀ w : Walk,
      (∀ p, p ∈ (loop E to_addr fuel w).2.reads →
        m2.memory.bytes p = w.machine.memory.bytes p) →
      loop E to_addr fuel ⟨m2, w.addr, w.lines, w.reads⟩
        = ((loop E to_addr fuel w).1,
           ⟨m2, (loop E to_addr fuel w).2.addr, (loop E to_addr fuel w).2.lines,
            (loop E to_addr fuel w).2.reads⟩) := by
  induction fuel with
  | zero => intro w _; rfl
  | succ n ih =>
    intro w H
    by_cases hlt : w.addr < to_addr
    · have hw : w.addr + 1 < addressSpace := Nat.lt_of_le_of_lt (Nat.succ_le_of_lt hlt) hto
      have hlt2 : (Walk.mk m2 w.addr w.lines w.reads).addr < to_addr := hlt
      by_cases hle : (iteration E w).addr ≤ to_addr
      · rw [loop_continue E to_addr n w hlt hle] at H
        have hit := iteration_congr E w m2 hw
          (fun p hp => H p (loop_reads_mono E to_addr n (iteration E w) p hp))
        have hle2 : (iteration E (Walk.mk m2 w.addr w.lines w.reads)).addr ≤ to_addr := by
          rw [hit]; exact hle
        rw [loop_continue E to_addr n _ hlt2 hle2, hit, loop_continue E to_addr n w hlt hle]
        exact ih (iteration E w) (fun p hp => by rw [iteration_machine E w]; exact H p hp)
      · rw [loop_assert E to_addr n w hlt hle] at H
        have hit := iteration_congr E w m2 hw (fun p hp => H p hp)
        have hle2 : ¬ (iteration E (Walk.mk m2 w.addr w.lines w.reads)).addr ≤ to_addr := by
          rw [hit]; exact hle
        rw [loop_assert E to_addr n _ hlt2 hle2, hit, loop_assert E to_addr n w hlt hle]
    · have hge : to_addr ≤ w.addr := Nat.not_lt.mp hlt
      rw [loop_of_ge E to_addr (n + 1) w w.addr rfl hge,
        loop_of_ge E to_addr (n + 1) (Walk.mk m2 w.addr w.lines w.reads) w.addr rfl hge]

theorem iteration_reads_bound (E : Encoding) (w : Walk) (a : Nat) (ha : w.addr = a)
    (hlt : a + 7 < addressSpace) (p : Nat) (hp : p ∈ (iteration E w).reads) :
    p ∈ w.reads ∨ p < a + 7 := by
  have hmod : (a + 1) % addressSpace = a + 1 := Nat.mod_eq_of_lt (by omega)
  cases h : decode E (tagAt E w) with
  | none =>
    rcases (iteration_reads_of_none E w h p).mp hp with h1 | h1
    · exact Or.inl h1
    · right; rw [h1, ha]; omega
  | some c =>
    have hc := sizeof_Args_le c
    rcases (iteration_reads_of_some E w c h p).mp hp with h1 | h1 | ⟨_, h2⟩
    · exact Or.inl h1
    · right; rw [h1, ha]; omega
    · right
      rw [ha, hmod] at h2
      have h3 : @LT.lt Nat _ p (a + 1 + sizeof_Args c) := h2
      omega

theorem loop_reads_bound (E : Encoding) (to_addr : Nat) (hto : to_addr ≤ 0x4000) (fuel : Nat) :
    ∀ w : Walk, (∀ p, p ∈ w.reads → p < to_addr + 6) →
      ∀ p, p ∈ (loop E to_addr fuel w).2.reads → p < to_addr + 6 := by
  have hspace : addressSpace = 65536 := rfl
  induction fuel with
  | zero => intro w H p hp; exact H p (by simpa [loop] using hp)
  | succ n ih =>
    intro w H p hp
    by_cases hlt : w.addr < to_addr
    · have hlt2 : @LT.lt Nat _ w.addr to_addr := hlt
      have hstep : ∀ q, q ∈ (iteration E w).reads → q < to_addr + 6 := by
        intro q hq
        rcases iteration_reads_bound E w w.addr rfl (by omega) q hq with h1 | h1
        · exact H q h1
        · omega
      by_cases hle : (iteration E w).addr ≤ to_addr
      · rw [loop_continue E to_addr n w hlt hle] at hp
        exact ih (iteration E w) hstep p hp
      · rw [loop_assert E to_addr n w hlt hle] at hp
        exact hstep p hp
    · rw [loop_of_ge E to_addr (n + 1) w w.addr rfl (Nat.not_lt.mp hlt)] at hp
      exact H p hp

end Disassembler

namespace Disassembler
open Machine

/-- C9, as stated, fails: two machines whose memories agree in every byte (all
of `[0, size)` is zero in both) print different text for the range
`[0x4000, 0x4001)`, which starts where memory ends; the walk makes no bounds
check and prints the byte stored after the array. -/
theorem disassemble_text_past_memory :
    size 128 128 = 0x4000 ∧
    (∀ p, p < size 128 128 →
      (machineWith 0x4000 0xff).memory.bytes p = (machineWith 0x4000 0).memory.bytes p) ∧
    (disassemble Encoding.sample (machineWith 0x4000 0) 0x4000 0x4001).2.output
      = "0x4000 (1) :  NOP\n" ∧
    (disassemble Encoding.sample (machineWith 0x4000 0xff) 0x4000 0x4001).2.output
      = "0x4000 (1) Unrecognised code: 0xff\n" ∧
    (disassemble Encoding.sample (machineWith 0x4000 0xff) 0x4000 0x4001).2.output
      ≠ (disassemble Encoding.sample (machineWith 0x4000 0) 0x4000 0x4001).2.output := by
  refine ⟨by decide, fun p hp => ?_, by decide, by decide, by decide⟩
  have hsize : size 128 128 = 0x4000 := by decide
  have hne : p ≠ 0x4000 := by omega
  simp [machineWith, hne]

/-- C9 amended. For every machine state and range, `disassemble(machine, from,
to)` returns the machine it was given, every byte of memory (the
instruction-pointer slot at address 0 included) unchanged, also when the walk is
cut short.  Whenever the walk reads no byte at or beyond `size` (in particular
whenever `to + 6 <= size`), its outcome and its text are a function of the
contents of memory, `from` and `to` only: a machine that agrees on `[0, size)`
gives the same lines whatever is stored outside memory, so that running the walk
again on the memory the first run left yields identical text. -/
theorem disassemble_pure (E : Encoding) (machine : Machine.Machine)
    (from_addr to_addr : Nat) :
    (disassemble E machine from_addr to_addr).2.machine = machine ∧
    (∀ p, (disassemble E machine from_addr to_addr).2.machine.memory.bytes p
      = machine.memory.bytes p) ∧
    (disassemble E machine from_addr to_addr).2.machine.memory.bytes Reserved.NI
      = machine.memory.bytes Reserved.NI ∧
    (∀ fuel, (loop E to_addr fuel (Walk.start machine from_addr)).2.machine = machine) ∧
    (to_addr < addressSpace →
      (∀ p, p ∈ (disassemble E machine from_addr to_addr).2.reads → p < size 128 128) →
      ∀ machine2 : Machine.Machine,
        (∀ p, p < size 128 128 → machine2.memory.bytes p = machine.memory.bytes p) →
        (disassemble E machine2 from_addr to_addr).1
          = (disassemble E machine from_addr to_addr).1 ∧
        (disassemble E machine2 from_addr to_addr).2.lines
          = (disassemble E machine from_addr to_addr).2.lines ∧
        (disassemble E machine2 from_addr to_addr).2.output
          = (disassemble E machine from_addr to_addr).2.output ∧
        (disassemble E machine2 from_addr to_addr).2.reads
          = (disassemble E machine from_addr to_addr).2.reads) ∧
    (to_addr < addressSpace →
      (∀ p, p ∈ (disassemble E machine from_addr to_addr).2.reads → p < size 128 128) →
      ∀ machine2 : Machine.Machine,
        (∀ p, p < size 128 128 → machine2.memory.bytes p
          = (disassemble E machine from_addr to_addr).2.machine.memory.bytes p) →
        (disassemble E machine2 from_addr to_addr).2.output
          = (disassemble E machine from_addr to_addr).2.output) ∧
    (to_addr + 6 ≤ size 128 128 →
      ∀ p, p ∈ (disassemble E machine from_addr to_addr).2.reads → p < size 128 128) := by
  have hsize : size 128 128 = 0x4000 := by decide
  have hm : (disassemble E machine from_addr to_addr).2.machine = machine :=
    loop_machine E to_addr addressSpace (Walk.start machine from_addr)
  have hlocal : to_addr < addressSpace →
      (∀ p, p ∈ (disassemble E machine from_addr to_addr).2.reads → p < size 128 128) →
      ∀ machine2 : Machine.Machine,
        (∀ p, p < size 128 128 → machine2.memory.bytes p = machine.memory.bytes p) →
        disassemble E machine2 from_addr to_addr
          = ((disassemble E machine from_addr to_addr).1,
             ⟨machine2, (disassemble E machine from_addr to_addr).2.addr,
              (disassemble E machine from_addr to_addr).2.lines,
              (disassemble E machine from_addr to_addr).2.reads⟩) :=
    fun hto hreads machine2 hagree =>
      loop_congr E to_addr hto machine2 addressSpace (Walk.start machine from_addr)
        (fun p hp => hagree p (hreads p hp))
  refine ⟨hm, fun p => by rw [hm], by rw [hm], fun fuel => ?_,
    fun hto hreads machine2 hagree => ?_, fun hto hreads machine2 hagree => ?_,
    fun hto6 p hp => ?_⟩
  · exact loop_machine E to_addr fuel (Walk.start machine from_addr)
  · rw [hlocal hto hreads machine2 hagree]
    exact ⟨rfl, rfl, rfl, rfl⟩
  · rw [hm] at hagree
    rw [hlocal hto hreads machine2 hagree]
    rfl
  · have hb := loop_reads_bound E to_addr (by omega) addressSpace
      (Walk.start machine from_addr) (fun q hq => by simp [Walk.start] at hq) p hp
    omega

/-- Witness of C9 amended: a nine-byte program walked over `[0, 9)` prints the
same text when the byte stored after the array, at `0x4000`, is changed. -/
theorem disassemble_pure_witness :
    (∀ p, p ∈ (disassemble Encoding.sample (machineOf [1, 1, 0, 2, 0, 3, 0, 0xff, 0]) 0 9).2.reads →
      p < size 128 128) ∧
    (Machine.set .little .u8 (machineOf [1, 1, 0, 2, 0, 3, 0, 0xff, 0]).memory 0x4000 0x5a).bytes
      0x4000 ≠ (machineOf [1, 1, 0, 2, 0, 3, 0, 0xff, 0]).memory.bytes 0x4000 ∧
    (disassemble Encoding.sample
      ⟨Machine.set .little .u8 (machineOf [1, 1, 0, 2, 0, 3, 0, 0xff, 0]).memory 0x4000 0x5a⟩
      0 9).2.output
      = (disassemble Encoding.sample (machineOf [1, 1, 0, 2, 0, 3, 0, 0xff, 0]) 0 9).2.output :=
  have hreads : ∀ p,
      p ∈ (disassemble Encoding.sample (machineOf [1, 1, 0, 2, 0, 3, 0, 0xff, 0]) 0 9).2.reads →
      p < size 128 128 := by decide
  ⟨hreads, by decide,
   ((disassemble_pure Encoding.sample (machineOf [1, 1, 0, 2, 0, 3, 0, 0xff, 0]) 0 9).2.2.2.2.1
      (by decide) hreads
      ⟨Machine.set .little .u8 (machineOf [1, 1, 0, 2, 0, 3, 0, 0xff, 0]).memory 0x4000 0x5a⟩
      (fun p hp => store_bytes_outside .little .u8 _ 0x4000 0x5a p
        (Or.inl (by have hsize : size 128 128 = 0x4000 := by decide
                    omega)))).2.2.1⟩

end Disassembler
